import Mathlib

/-!
# Verification of `osm-num-active-contributors` (`src/main.rs`)

Shallow embedding of the temporal activity aggregation engine:

* calendar days and timestamps are modelled as integers (`chrono::NaiveDate`
  arithmetic is plain day arithmetic away from the far-distant
  `NaiveDate::MIN/MAX` bounds, and epoch timestamps are `i64`);
* the three per-worker indexes (`user_edit_days : HashMap<u32, BTreeSet<NaiveDate>>`,
  `day_edit_users : BTreeMap<NaiveDate, HashSet<u32>>`,
  `last_username : HashMap<u32, (i64, String)>`) are modelled as total
  functions with the map's "absent key" reading (`∅` resp. `none`).  The
  source never stores an empty set under a key (every `entry(..).or_default()`
  is immediately followed by an `insert`/nonempty `extend`), so reads through
  `get`/`range` are faithfully reproduced by the `∅` default;
* the per-event fold body (main.rs lines 63–91), the pairwise reduce
  (lines 92–111), the per-day report loop (lines 134–163) and the per-user
  report loop (lines 165–215) are each translated into a Lean function below,
  with the source lines noted at each definition.
-/

namespace OsmNac

/- Types: an editor id (`u32`; `o.uid()`) is a `ℕ`; an epoch timestamp
(`i64`; `o.timestamp().to_epoch_number()`) is a `ℤ`; a calendar day
(`chrono::NaiveDate`) is a `ℤ` day number, so that day arithmetic such as
`day - chrono::Days::new(365)` becomes integer subtraction. -/

/-- One edit event as the fold body sees it (main.rs lines 70–79): an editor
id, an editor display name, an epoch timestamp, and the calendar day derived
from that timestamp. -/
structure Event where
  uid : ℕ
  user : String
  timestamp : ℤ
  day : ℤ
deriving DecidableEq, Repr

/-- One worker's triple of indexes (main.rs lines 56–59). -/
structure Aggregate where
  user_edit_days : ℕ → Finset ℤ
  day_edit_users : ℤ → Finset ℕ
  last_username : ℕ → Option (ℤ × String)

/-- The `map_or(true, |(ts, un)| ts <= &timestamp && un != o.user().unwrap())`
condition of the per-event fold (main.rs lines 80–83). -/
def foldNameCond (stored : Option (ℤ × String)) (timestamp : ℤ)
    (user : String) : Bool :=
  match stored with
  | none => true
  | some (ts, un) => decide (ts ≤ timestamp) && decide (un ≠ user)

/-- The `map_or(true, |(ts1, un1)| &ts2 >= ts1 && &un2 != un1)` condition of
the pairwise reduce (main.rs lines 102–104). -/
def mergeNameCond (stored : Option (ℤ × String)) (ts2 : ℤ)
    (un2 : String) : Bool :=
  match stored with
  | none => true
  | some (ts1, un1) => decide (ts2 ≥ ts1) && decide (un2 ≠ un1)

/-- The per-event fold body (main.rs lines 70–90): update the latest-name
entry when `foldNameCond` holds, insert `day` into `user_edit_days[uid]` and
`uid` into `day_edit_users[day]`. -/
def foldEvent (acc : Aggregate) (o : Event) : Aggregate where
  user_edit_days := fun u =>
    if u = o.uid then insert o.day (acc.user_edit_days o.uid)
    else acc.user_edit_days u
  day_edit_users := fun d =>
    if d = o.day then insert o.uid (acc.day_edit_users o.day)
    else acc.day_edit_users d
  last_username := fun u =>
    if u = o.uid then
      if foldNameCond (acc.last_username o.uid) o.timestamp o.user then
        some (o.timestamp, o.user)
      else acc.last_username o.uid
    else acc.last_username u

/-- The pairwise reduce (main.rs lines 92–110): per-key set union for the two
activity indexes; for the latest-name index every entry `(ts2, un2)` of the
second map overwrites the first map's entry when `mergeNameCond` holds. -/
def merge (a b : Aggregate) : Aggregate where
  user_edit_days := fun u => a.user_edit_days u ∪ b.user_edit_days u
  day_edit_users := fun d => a.day_edit_users d ∪ b.day_edit_users d
  last_username := fun u =>
    match b.last_username u with
    | none => a.last_username u
    | some (ts2, un2) =>
      if mergeNameCond (a.last_username u) ts2 un2 then some (ts2, un2)
      else a.last_username u

/-- A worker's initial state: all three maps empty (`Default::default` at
main.rs line 64). -/
def emptyAgg : Aggregate where
  user_edit_days := fun _ => ∅
  day_edit_users := fun _ => ∅
  last_username := fun _ => none

/-- One worker folding its subsequence of events in delivery order
(main.rs lines 63–91). -/
def foldEvents (events : List Event) : Aggregate :=
  events.foldl foldEvent emptyAgg

/-! ## Membership characterizations of the two activity indexes -/

/-- One fold step: membership in `user_edit_days`. -/
theorem mem_user_edit_days_foldEvent (acc : Aggregate) (o : Event) (u : ℕ)
    (d : ℤ) :
    d ∈ (foldEvent acc o).user_edit_days u ↔
      d ∈ acc.user_edit_days u ∨ (o.uid = u ∧ o.day = d) := by
  by_cases h : u = o.uid
  · subst h
    have hU : (foldEvent acc o).user_edit_days o.uid
        = insert o.day (acc.user_edit_days o.uid) := by
      simp [foldEvent]
    rw [hU, Finset.mem_insert]
    constructor
    · rintro (rfl | hmem)
      · exact Or.inr ⟨rfl, rfl⟩
      · exact Or.inl hmem
    · rintro (hmem | ⟨-, rfl⟩)
      · exact Or.inr hmem
      · exact Or.inl rfl
  · have h2 : ¬(o.uid = u) := fun e => h e.symm
    simp [foldEvent, h, h2]

/-- One fold step: membership in `day_edit_users`. -/
theorem mem_day_edit_users_foldEvent (acc : Aggregate) (o : Event) (u : ℕ)
    (d : ℤ) :
    u ∈ (foldEvent acc o).day_edit_users d ↔
      u ∈ acc.day_edit_users d ∨ (o.uid = u ∧ o.day = d) := by
  by_cases h : d = o.day
  · subst h
    have hD : (foldEvent acc o).day_edit_users o.day
        = insert o.uid (acc.day_edit_users o.day) := by
      simp [foldEvent]
    rw [hD, Finset.mem_insert]
    constructor
    · rintro (rfl | hmem)
      · exact Or.inr ⟨rfl, rfl⟩
      · exact Or.inl hmem
    · rintro (hmem | ⟨rfl, -⟩)
      · exact Or.inr hmem
      · exact Or.inl rfl
  · have h2 : ¬(o.day = d) := fun e => h e.symm
    simp [foldEvent, h, h2]

/-- Folding a list of events from an arbitrary accumulator: membership in
`user_edit_days`. -/
theorem mem_user_edit_days_foldl (l : List Event) (acc : Aggregate)
    (u : ℕ) (d : ℤ) :
    d ∈ (l.foldl foldEvent acc).user_edit_days u ↔
      d ∈ acc.user_edit_days u ∨ ∃ o ∈ l, o.uid = u ∧ o.day = d := by
  induction l generalizing acc with
  | nil => simp
  | cons o l ih =>
    rw [List.foldl_cons, ih, mem_user_edit_days_foldEvent]
    simp only [List.mem_cons]
    constructor
    · rintro ((h | h) | ⟨e, he, h⟩)
      · exact Or.inl h
      · exact Or.inr ⟨o, Or.inl rfl, h⟩
      · exact Or.inr ⟨e, Or.inr he, h⟩
    · rintro (h | ⟨e, (rfl | he), h⟩)
      · exact Or.inl (Or.inl h)
      · exact Or.inl (Or.inr h)
      · exact Or.inr ⟨e, he, h⟩

/-- Folding a list of events from an arbitrary accumulator: membership in
`day_edit_users`. -/
theorem mem_day_edit_users_foldl (l : List Event) (acc : Aggregate)
    (u : ℕ) (d : ℤ) :
    u ∈ (l.foldl foldEvent acc).day_edit_users d ↔
      u ∈ acc.day_edit_users d ∨ ∃ o ∈ l, o.uid = u ∧ o.day = d := by
  induction l generalizing acc with
  | nil => simp
  | cons o l ih =>
    rw [List.foldl_cons, ih, mem_day_edit_users_foldEvent]
    simp only [List.mem_cons]
    constructor
    · rintro ((h | h) | ⟨e, he, h⟩)
      · exact Or.inl h
      · exact Or.inr ⟨o, Or.inl rfl, h⟩
      · exact Or.inr ⟨e, Or.inr he, h⟩
    · rintro (h | ⟨e, (rfl | he), h⟩)
      · exact Or.inl (Or.inl h)
      · exact Or.inl (Or.inr h)
      · exact Or.inr ⟨e, he, h⟩

/-- A single worker's `user_edit_days[u]` holds exactly the days of the
worker's events with editor id `u`. -/
theorem mem_user_edit_days_foldEvents (l : List Event) (u : ℕ) (d : ℤ) :
    d ∈ (foldEvents l).user_edit_days u ↔ ∃ o ∈ l, o.uid = u ∧ o.day = d := by
  rw [foldEvents, mem_user_edit_days_foldl]
  simp [emptyAgg]

/-- A single worker's `day_edit_users[d]` holds exactly the editor ids of the
worker's events on day `d`. -/
theorem mem_day_edit_users_foldEvents (l : List Event) (u : ℕ) (d : ℤ) :
    u ∈ (foldEvents l).day_edit_users d ↔ ∃ o ∈ l, o.uid = u ∧ o.day = d := by
  rw [foldEvents, mem_day_edit_users_foldl]
  simp [emptyAgg]

/-- Merging two partial triples unions `user_edit_days` per key. -/
theorem mem_user_edit_days_merge (a b : Aggregate) (u : ℕ) (d : ℤ) :
    d ∈ (merge a b).user_edit_days u ↔
      d ∈ a.user_edit_days u ∨ d ∈ b.user_edit_days u := by
  simp [merge]

/-- Merging two partial triples unions `day_edit_users` per key. -/
theorem mem_day_edit_users_merge (a b : Aggregate) (u : ℕ) (d : ℤ) :
    u ∈ (merge a b).day_edit_users d ↔
      u ∈ a.day_edit_users d ∨ u ∈ b.day_edit_users d := by
  simp [merge]

/-! ## C3: partition / reduction-tree independence -/

/-- A reduction tree: leaves are workers folding their own subsequence of
events, inner nodes are pairwise merges.  This captures every association
order in which `rayon`'s `reduce_with` (main.rs line 92) can combine the
worker-local triples. -/
inductive MergeTree where
  | leaf : List Event → MergeTree
  | node : MergeTree → MergeTree → MergeTree

/-- All events under a reduction tree, leaf order. -/
def MergeTree.events : MergeTree → List Event
  | .leaf l => l
  | .node a b => a.events ++ b.events

/-- Evaluate a reduction tree: fold each leaf's subsequence with one worker,
then merge the partial triples in the tree's association order. -/
def MergeTree.eval : MergeTree → Aggregate
  | .leaf l => foldEvents l
  | .node a b => merge a.eval b.eval

/-- Membership in a reduction tree's `user_edit_days`. -/
theorem mem_user_edit_days_eval (t : MergeTree) (u : ℕ) (d : ℤ) :
    d ∈ t.eval.user_edit_days u ↔ ∃ o ∈ t.events, o.uid = u ∧ o.day = d := by
  induction t with
  | leaf l => exact mem_user_edit_days_foldEvents l u d
  | node a b iha ihb =>
    rw [MergeTree.eval, mem_user_edit_days_merge, iha, ihb, MergeTree.events]
    simp only [List.mem_append]
    constructor
    · rintro (⟨o, ho, hp⟩ | ⟨o, ho, hp⟩)
      · exact ⟨o, Or.inl ho, hp⟩
      · exact ⟨o, Or.inr ho, hp⟩
    · rintro ⟨o, ho | ho, hp⟩
      · exact Or.inl ⟨o, ho, hp⟩
      · exact Or.inr ⟨o, ho, hp⟩

/-- Membership in a reduction tree's `day_edit_users`. -/
theorem mem_day_edit_users_eval (t : MergeTree) (u : ℕ) (d : ℤ) :
    u ∈ t.eval.day_edit_users d ↔ ∃ o ∈ t.events, o.uid = u ∧ o.day = d := by
  induction t with
  | leaf l => exact mem_day_edit_users_foldEvents l u d
  | node a b iha ihb =>
    rw [MergeTree.eval, mem_day_edit_users_merge, iha, ihb, MergeTree.events]
    simp only [List.mem_append]
    constructor
    · rintro (⟨o, ho, hp⟩ | ⟨o, ho, hp⟩)
      · exact ⟨o, Or.inl ho, hp⟩
      · exact ⟨o, Or.inr ho, hp⟩
    · rintro ⟨o, ho | ho, hp⟩
      · exact Or.inl ⟨o, ho, hp⟩
      · exact Or.inr ⟨o, ho, hp⟩

/-- C3: for any partition of a fixed event set into k subsequences, folding
each subsequence into a partial triple and merging the partial triples in any
association order (any `MergeTree` whose leaves carry a permutation of the
events) yields exactly the same `user_edit_days` and `day_edit_users` as
folding the whole event list with a single worker. -/
theorem claim3_partition_independence (t : MergeTree) (l : List Event)
    (h : t.events.Perm l) :
    t.eval.user_edit_days = (foldEvents l).user_edit_days
      ∧ t.eval.day_edit_users = (foldEvents l).day_edit_users := by
  constructor
  · funext u
    ext d
    rw [mem_user_edit_days_eval, mem_user_edit_days_foldEvents]
    exact ⟨fun ⟨o, ho, hp⟩ => ⟨o, h.mem_iff.mp ho, hp⟩,
      fun ⟨o, ho, hp⟩ => ⟨o, h.mem_iff.mpr ho, hp⟩⟩
  · funext d
    ext u
    rw [mem_day_edit_users_eval, mem_day_edit_users_foldEvents]
    exact ⟨fun ⟨o, ho, hp⟩ => ⟨o, h.mem_iff.mp ho, hp⟩,
      fun ⟨o, ho, hp⟩ => ⟨o, h.mem_iff.mpr ho, hp⟩⟩

/-- Three concrete events used to exercise `claim3_partition_independence`. -/
def ev1 : Event := ⟨7, "u7", 1000, 0⟩

/-- Second concrete event (editor 7, next day). -/
def ev2 : Event := ⟨7, "u7", 87400, 1⟩

/-- Third concrete event (editor 9). -/
def ev3 : Event := ⟨9, "u9", 87500, 1⟩

/-- Witness for C3: a two-worker partition of three events, merged with the
second worker's triple first, agrees with the single-worker fold. -/
theorem claim3_partition_independence_witness :
    (MergeTree.node (.leaf [ev2, ev3]) (.leaf [ev1])).eval.user_edit_days
        = (foldEvents [ev1, ev2, ev3]).user_edit_days
      ∧ (MergeTree.node (.leaf [ev2, ev3]) (.leaf [ev1])).eval.day_edit_users
        = (foldEvents [ev1, ev2, ev3]).day_edit_users :=
  claim3_partition_independence (.node (.leaf [ev2, ev3]) (.leaf [ev1]))
    [ev1, ev2, ev3] (by decide)

/-! ## C4: duality of the two activity indexes -/

/-- The states reachable by the aggregation phase: any worker-local fold of a
subsequence, and any pairwise merge of two reachable states.  This covers
every fold/merge sequence `rayon`'s `fold`/`reduce_with` pipeline
(main.rs lines 60–112) can produce. -/
inductive Reachable : Aggregate → Prop where
  | fold (l : List Event) : Reachable (foldEvents l)
  | merged {a b : Aggregate} : Reachable a → Reachable b → Reachable (merge a b)

/-- C4: in every state the aggregation phase can reach (any sequence of folds
combined by any sequence of merges), a user is in `day_edit_users[day]` if and
only if the day is in `user_edit_days[user]`. -/
theorem claim4_duality (s : Aggregate) (hs : Reachable s) (d : ℤ)
    (u : ℕ) :
    u ∈ s.day_edit_users d ↔ d ∈ s.user_edit_days u := by
  induction hs with
  | fold l =>
    rw [mem_day_edit_users_foldEvents, mem_user_edit_days_foldEvents]
  | merged ha hb iha ihb =>
    rw [mem_day_edit_users_merge, mem_user_edit_days_merge, iha, ihb]

/-- Witness for C4: duality at a concrete merged state, day and user. -/
theorem claim4_duality_witness :
    7 ∈ (merge (foldEvents [ev1]) (foldEvents [ev2, ev3])).day_edit_users 0
      ↔ 0 ∈ (merge (foldEvents [ev1]) (foldEvents [ev2, ev3])).user_edit_days 7 :=
  claim4_duality _ (Reachable.merged (Reachable.fold [ev1])
    (Reachable.fold [ev2, ev3])) 0 7

/-! ## C2: the latest-name replacement rule -/

/-- The spec's replacement rule, written from §4.2's words: an incoming
`(timestamp2, name2)` replaces the stored entry exactly when the id is absent,
or `timestamp2 >= timestamp1` and `name2 != name1`. -/
def specNameReplaces (stored : Option (ℤ × String)) (ts2 : ℤ)
    (un2 : String) : Prop :=
  stored = none
    ∨ ∃ ts1 un1, stored = some (ts1, un1) ∧ ts2 ≥ ts1 ∧ un2 ≠ un1

/-- `specNameReplaces` on a present entry is exactly the spec's
"`timestamp2 >= timestamp1` and `name2 != name1`". -/
theorem specNameReplaces_some_iff (ts1 : ℤ) (un1 : String)
    (ts2 : ℤ) (un2 : String) :
    specNameReplaces (some (ts1, un1)) ts2 un2 ↔ ts2 ≥ ts1 ∧ un2 ≠ un1 := by
  unfold specNameReplaces
  constructor
  · rintro (h | ⟨ts1', un1', h, hts, hun⟩)
    · exact Option.noConfusion h
    · injection h with h'
      injection h' with h1 h2
      subst h1
      subst h2
      exact ⟨hts, hun⟩
  · intro h
    exact Or.inr ⟨ts1, un1, rfl, h⟩

/-- The fold-site condition decides exactly the spec's replacement rule. -/
theorem foldNameCond_eq_true_iff (stored : Option (ℤ × String))
    (ts2 : ℤ) (un2 : String) :
    foldNameCond stored ts2 un2 = true ↔ specNameReplaces stored ts2 un2 := by
  cases stored with
  | none => simp [foldNameCond, specNameReplaces]
  | some p =>
    obtain ⟨ts1, un1⟩ := p
    rw [specNameReplaces_some_iff]
    simp [foldNameCond, ge_iff_le, ne_comm]

/-- The merge-site condition decides exactly the spec's replacement rule. -/
theorem mergeNameCond_eq_true_iff (stored : Option (ℤ × String))
    (ts2 : ℤ) (un2 : String) :
    mergeNameCond stored ts2 un2 = true ↔ specNameReplaces stored ts2 un2 := by
  cases stored with
  | none => simp [mergeNameCond, specNameReplaces]
  | some p =>
    obtain ⟨ts1, un1⟩ := p
    rw [specNameReplaces_some_iff]
    simp [mergeNameCond, ge_iff_le]

instance (stored : Option (ℤ × String)) (ts2 : ℤ)
    (un2 : String) : Decidable (specNameReplaces stored ts2 un2) :=
  decidable_of_iff (mergeNameCond stored ts2 un2 = true)
    (mergeNameCond_eq_true_iff stored ts2 un2)

/-- C2: both the per-event fold and the pairwise merge replace the stored
latest-name entry by the incoming `(timestamp2, name2)` exactly when the id is
absent or `timestamp2 ≥ timestamp1 ∧ name2 ≠ name1`, and keep the stored entry
in every other case. -/
theorem claim2_latest_name_rule (acc : Aggregate) (o : Event) (a b : Aggregate)
    (u : ℕ) :
    ((foldEvent acc o).last_username o.uid =
      if specNameReplaces (acc.last_username o.uid) o.timestamp o.user then
        some (o.timestamp, o.user)
      else acc.last_username o.uid)
    ∧ ((merge a b).last_username u =
        match b.last_username u with
        | none => a.last_username u
        | some (ts2, un2) =>
          if specNameReplaces (a.last_username u) ts2 un2 then some (ts2, un2)
          else a.last_username u) := by
  constructor
  · have hfold : (foldEvent acc o).last_username o.uid =
        if foldNameCond (acc.last_username o.uid) o.timestamp o.user then
          some (o.timestamp, o.user)
        else acc.last_username o.uid := by
      simp [foldEvent]
    rw [hfold]
    by_cases hc : specNameReplaces (acc.last_username o.uid) o.timestamp o.user
    · rw [if_pos hc, if_pos ((foldNameCond_eq_true_iff _ _ _).mpr hc)]
    · rw [if_neg hc,
        if_neg (fun h => hc ((foldNameCond_eq_true_iff _ _ _).mp h))]
  · have hmerge : (merge a b).last_username u =
        match b.last_username u with
        | none => a.last_username u
        | some (ts2, un2) =>
          if mergeNameCond (a.last_username u) ts2 un2 then some (ts2, un2)
          else a.last_username u := rfl
    rw [hmerge]
    cases hb : b.last_username u with
    | none => rfl
    | some p =>
      obtain ⟨ts2, un2⟩ := p
      show (if mergeNameCond (a.last_username u) ts2 un2 then some (ts2, un2)
          else a.last_username u)
        = if specNameReplaces (a.last_username u) ts2 un2 then some (ts2, un2)
          else a.last_username u
      by_cases hc : specNameReplaces (a.last_username u) ts2 un2
      · rw [if_pos hc, if_pos ((mergeNameCond_eq_true_iff _ _ _).mpr hc)]
      · rw [if_neg hc,
          if_neg (fun h => hc ((mergeNameCond_eq_true_iff _ _ _).mp h))]

/-- First event of the §8 equal-timestamp scenario: editor 5 named "Alice". -/
def evAlice : Event := ⟨5, "Alice", 100, 0⟩

/-- Second event of the §8 equal-timestamp scenario: editor 5 named "Bob". -/
def evBob : Event := ⟨5, "Bob", 100, 0⟩

/-- C9: for two events for the same editor id with equal timestamps carrying
names "Alice" then "Bob", applying the latest-name update in that order (both
as a single worker's fold and as a merge of two partial triples) leaves "Bob"
as the latest name, and applying it in the reverse order leaves "Alice": the
surviving name depends on the processing order. -/
theorem claim9_equal_timestamp_order_dependence :
    ((foldEvents [evAlice, evBob]).last_username 5 = some (100, "Bob")
      ∧ (foldEvents [evBob, evAlice]).last_username 5 = some (100, "Alice"))
    ∧ ((merge (foldEvents [evAlice]) (foldEvents [evBob])).last_username 5
          = some (100, "Bob")
      ∧ (merge (foldEvents [evBob]) (foldEvents [evAlice])).last_username 5
          = some (100, "Alice")) := by
  decide

/-! ## Calendar-day ranges

`spanDays s e` enumerates the closed day range `[s, e]` in ascending order.
It embeds both day-range loops of the source
(`input_day_range.0.iter_days().take_while(|d| d <= input_day_range.1)` at
main.rs lines 136–140 and `start_date.iter_days().take_while(|d| d <= &end_date)`
at line 190) and the key enumeration of `day_edit_users.range(a..=b)`
(lines 147, 192): the `BTreeMap` visits the keys of the range in ascending
order, and in the total-function model a missing key contributes the empty
user set, so enumerating every calendar day of the range is equivalent. -/
def spanDays (s e : ℤ) : List ℤ :=
  (List.range (e - s + 1).toNat).map (fun i : ℕ => s + (i : ℤ))

/-- A day is listed by `spanDays s e` exactly when it lies in `[s, e]`. -/
theorem mem_spanDays (s e x : ℤ) : x ∈ spanDays s e ↔ s ≤ x ∧ x ≤ e := by
  simp only [spanDays, List.mem_map, List.mem_range]
  constructor
  · rintro ⟨i, hi, rfl⟩
    omega
  · rintro ⟨h1, h2⟩
    refine ⟨(x - s).toNat, by omega, by omega⟩

/-- `spanDays s e` lists `(e - s + 1).toNat` days. -/
theorem length_spanDays (s e : ℤ) :
    (spanDays s e).length = (e - s + 1).toNat := by
  simp [spanDays]

/-- The `i`-th day listed by `spanDays s e` is `s + i`. -/
theorem getElem?_spanDays (s e : ℤ) (i : ℕ) (hi : (i : ℤ) < e - s + 1) :
    (spanDays s e)[i]? = some (s + (i : ℤ)) := by
  have hi' : i < (e - s + 1).toNat := by omega
  simp [spanDays, hi']

/-- `spanDays` lists each day once. -/
theorem nodup_spanDays (s e : ℤ) : (spanDays s e).Nodup := by
  refine List.Nodup.map ?_ (List.nodup_range _)
  intro a b hab
  dsimp only at hab
  omega

/-! ## The rolling 365-day window engine -/

/-- `let year = chrono::Days::new(365)` (main.rs line 135). -/
def year : ℤ := 365

/-- The days visited by `day_edit_users.range(day - year..=day)`
(main.rs lines 146–147 and 191–192): the closed range from `day - 365` to
`day` inclusive. -/
def windowDays (d : ℤ) : List ℤ := spanDays (d - year) d

/-- The window around `d` holds exactly the days of `[d - 365, d]`. -/
theorem mem_windowDays (d x : ℤ) : x ∈ windowDays d ↔ d - 365 ≤ x ∧ x ≤ d := by
  rw [windowDays, mem_spanDays, year]

/-- The window holds 366 calendar days. -/
theorem length_windowDays (d : ℤ) : (windowDays d).length = 366 := by
  rw [windowDays, length_spanDays, year]
  omega

/-- The per-editor day set accumulated by the window fold
(`user_totals.entry(*uid).or_default().insert(day)`, main.rs lines 149–151
and 194–196): the days of the window on which `uid` was active. -/
def userWindowDays (D : ℤ → Finset ℕ) (d : ℤ) (uid : ℕ) :
    Finset ℤ :=
  (windowDays d).toFinset.filter (fun day => uid ∈ D day)

/-- The key set of the window fold's accumulator (`uids_last_year` /
`users_days`): every editor active on at least one day of the window. -/
def windowUsers (D : ℤ → Finset ℕ) (d : ℤ) : Finset ℕ :=
  (windowDays d).toFinset.biUnion D

/-- Membership in `userWindowDays`. -/
theorem mem_userWindowDays (D : ℤ → Finset ℕ) (d : ℤ) (uid : ℕ)
    (x : ℤ) :
    x ∈ userWindowDays D d uid ↔ (d - 365 ≤ x ∧ x ≤ d) ∧ uid ∈ D x := by
  rw [userWindowDays, Finset.mem_filter, List.mem_toFinset, mem_windowDays]

/-- Membership in `windowUsers`. -/
theorem mem_windowUsers (D : ℤ → Finset ℕ) (d : ℤ) (uid : ℕ) :
    uid ∈ windowUsers D d ↔ ∃ x, (d - 365 ≤ x ∧ x ≤ d) ∧ uid ∈ D x := by
  rw [windowUsers]
  simp only [Finset.mem_biUnion, List.mem_toFinset, mem_windowDays]

/-- The window fold's accumulator has `uid` as a key exactly when `uid`'s
day set within the window is nonempty (editors with zero days in the window
are absent, not present with an empty set). -/
theorem mem_windowUsers_iff_nonempty (D : ℤ → Finset ℕ) (d : ℤ)
    (uid : ℕ) :
    uid ∈ windowUsers D d ↔ (userWindowDays D d uid).Nonempty := by
  rw [mem_windowUsers]
  constructor
  · rintro ⟨x, hx, hu⟩
    exact ⟨x, (mem_userWindowDays D d uid x).mpr ⟨hx, hu⟩⟩
  · rintro ⟨x, hx⟩
    obtain ⟨hx1, hx2⟩ := (mem_userWindowDays D d uid x).mp hx
    exact ⟨x, hx1, hx2⟩

/-- `uids_last_year.values().filter(|days| days.len() >= 42).count()`
(main.rs lines 157–161): the number of editors with at least 42 distinct
active days in the window ending on `d`. -/
def superUserCount (D : ℤ → Finset ℕ) (d : ℤ) : ℕ :=
  ((windowUsers D d).filter (fun uid => 42 ≤ (userWindowDays D d uid).card)).card

/-! ## The per-day report (main.rs lines 134–163) -/

/-- One row of `user_totals_per_day.csv`
(`["date", "num_users", "rolling_yr_total", "users_ge42_days"]`). -/
structure DayRow where
  date : ℤ
  num_users : ℕ
  rolling_yr_total : ℕ
  users_ge42_days : ℕ
deriving DecidableEq, Repr

/-- The row written for day `d` (main.rs lines 141–162): the daily count is
`day_edit_users.get(&day).map_or("0", |uids| uids.len())`, which in the
total-function model is `(D d).card` (absent key = `∅`). -/
def dayRow (D : ℤ → Finset ℕ) (d : ℤ) : DayRow where
  date := d
  num_users := (D d).card
  rolling_yr_total := (windowUsers D d).card
  users_ge42_days := superUserCount D d

/-- The per-day report loop (main.rs lines 136–163): one row per day of the
observed range. -/
def perDayReport (D : ℤ → Finset ℕ) (minDay maxDay : ℤ) : List DayRow :=
  (spanDays minDay maxDay).map (dayRow D)

/-! ## The per-user report (main.rs lines 165–215) -/

/-- The command-line options the report logic reads (main.rs lines 24–42,
with the source's default values supplied by `clap`). -/
structure Args where
  min_edit_days : ℕ
  start_date : Option ℤ
  end_date : Option ℤ
  min_num_days : Option ℕ
deriving DecidableEq, Repr

/-- `fn clamp` (main.rs lines 221–229), at the `NaiveDate` instantiation the
program uses. -/
def clamp (val min_val max_val : ℤ) : ℤ :=
  if val > max_val then max_val
  else if val < min_val then min_val
  else val

/-- Resolution of the per-user report span (main.rs lines 173–189): default
the bounds to the observed day range, clamp both to the observed range, then
if the clamped span is shorter than `min_num_days`, pull `start_date` back by
`min_num_days` days (without re-clamping). -/
def resolveSpan (args : Args) (minDay maxDay : ℤ) : ℤ × ℤ :=
  let start0 := args.start_date.getD minDay
  let end0 := args.end_date.getD maxDay
  let start1 := clamp start0 minDay maxDay
  let end1 := clamp end0 minDay maxDay
  let start2 :=
    match args.min_num_days with
    | some min_num_days =>
      if end1 - start1 < (min_num_days : ℤ) then start1 - (min_num_days : ℤ)
      else start1
    | none => start1
  (start2, end1)

/-- The editors reported for day `d` (main.rs lines 199–200): the keys of the
window accumulator (a `BTreeMap`, iterated in ascending `uid` order) whose
day count is at least `min_edit_days`. -/
def qualifyingUsers (D : ℤ → Finset ℕ) (d : ℤ) (min_edit_days : ℕ) :
    List ℕ :=
  ((windowUsers D d).sort (· ≤ ·)).filter
    (fun uid => decide (min_edit_days ≤ (userWindowDays D d uid).card))

/-- One row of `users_per_day.csv` (`["date", "uid", "num_edit_days_last_yr",
"username", "ge42days", "mapped_days"]`). -/
structure UserRow where
  date : ℤ
  uid : ℕ
  num_edit_days_last_yr : ℕ
  username : String
  ge42days : Bool
  mapped_days : List ℤ
deriving DecidableEq, Repr

/-- The row written for `(d, uid)` (main.rs lines 201–212).  The source's
`last_username.get(uid).unwrap()` is total at every reported uid (every
observed event records a name); the model reads the entry with a dummy
default. -/
def userRow (D : ℤ → Finset ℕ) (L : ℕ → Option (ℤ × String))
    (d : ℤ) (uid : ℕ) : UserRow where
  date := d
  uid := uid
  num_edit_days_last_yr := (userWindowDays D d uid).card
  username := ((L uid).getD (0, "")).2
  ge42days := decide (42 ≤ (userWindowDays D d uid).card)
  mapped_days := (userWindowDays D d uid).sort (· ≤ ·)

/-- The per-user report loop (main.rs lines 190–215): for every day of the
resolved span, one row per qualifying editor. -/
def perUserReport (D : ℤ → Finset ℕ)
    (L : ℕ → Option (ℤ × String)) (args : Args)
    (minDay maxDay : ℤ) : List UserRow :=
  (spanDays (resolveSpan args minDay maxDay).1
      (resolveSpan args minDay maxDay).2).flatMap
    (fun d => (qualifyingUsers D d args.min_edit_days).map (userRow D L d))

/-! ## The observed day range -/

/-- The days carrying at least one event.  In the source the observed range
is read off as the first and last key of the completed `day_edit_users`
(main.rs lines 121–124); `day_edit_users_eq_empty_iff` below justifies that
those keys are exactly the event days. -/
def observedDays (events : List Event) : Finset ℤ :=
  (events.map Event.day).toFinset

/-- A day has an empty user set in the folded index exactly when no event
fell on it — i.e. the `BTreeMap` keys of the source are exactly
`observedDays`. -/
theorem day_edit_users_eq_empty_iff (l : List Event) (d : ℤ) :
    (foldEvents l).day_edit_users d = ∅ ↔ d ∉ observedDays l := by
  rw [observedDays, ← Finset.not_nonempty_iff_eq_empty]
  apply not_congr
  constructor
  · rintro ⟨u, hu⟩
    obtain ⟨o, ho, -, rfl⟩ := (mem_day_edit_users_foldEvents l u d).mp hu
    exact List.mem_toFinset.mpr (List.mem_map_of_mem Event.day ho)
  · intro hd
    obtain ⟨o, ho, rfl⟩ := List.mem_map.mp (List.mem_toFinset.mp hd)
    exact ⟨o.uid, (mem_day_edit_users_foldEvents l o.uid o.day).mpr
      ⟨o, ho, rfl, rfl⟩⟩

/-- A nonempty event list observes at least one day (the source `unwrap`s
`first_key_value`/`last_key_value`, which is total for nonempty input). -/
theorem observedDays_nonempty (events : List Event) (h : events ≠ []) :
    (observedDays events).Nonempty := by
  cases events with
  | nil => exact absurd rfl h
  | cons o os =>
    exact ⟨o.day, List.mem_toFinset.mpr (List.mem_map_of_mem Event.day
      (List.mem_cons_self o os))⟩

/-! ## C1: extent of the rolling window -/

/-- C1 (amended): the rolling-window computation covers exactly the closed
range `[D - 365, D]` — 365 days before `D` plus `D` itself, i.e. 366 calendar
days — so for every editor the count of distinct active days within one
window is at most 366. -/
theorem claim1_window_range_and_bound (D : ℤ → Finset ℕ) (d : ℤ) (uid : ℕ) :
    (∀ x : ℤ, x ∈ userWindowDays D d uid ↔ (d - 365 ≤ x ∧ x ≤ d) ∧ uid ∈ D x)
      ∧ (userWindowDays D d uid).card ≤ 366 := by
  refine ⟨fun x => mem_userWindowDays D d uid x, ?_⟩
  calc (userWindowDays D d uid).card
      ≤ (windowDays d).toFinset.card := Finset.card_filter_le _ _
    _ ≤ (windowDays d).length := List.toFinset_card_le _
    _ = 366 := length_windowDays d

/-- The window list holds each day once. -/
theorem nodup_windowDays (d : ℤ) : (windowDays d).Nodup := by
  rw [windowDays]
  exact nodup_spanDays _ _

/-- A day index with editor 1 active on every day of `[0, 365]`. -/
def cex1Index : ℤ → Finset ℕ := fun d => if 0 ≤ d ∧ d ≤ 365 then {1} else ∅

/-- Counterexample to C1 as stated: for target day 365, editor 1's count of
distinct days within one window is 366, exceeding the claimed bound of 365
(the window also contains day `365 - 365 = 0`, outside the claimed range
`[D - 364, D]`). -/
theorem claim1_counterexample :
    (userWindowDays cex1Index 365 1).card = 366
      ∧ ¬(userWindowDays cex1Index 365 1).card ≤ 365 := by
  have hfull : userWindowDays cex1Index 365 1 = (windowDays 365).toFinset := by
    rw [userWindowDays]
    apply Finset.filter_true_of_mem
    intro x hx
    rw [List.mem_toFinset, mem_windowDays] at hx
    simp only [cex1Index]
    rw [if_pos ⟨by omega, hx.2⟩]
    exact Finset.mem_singleton_self 1
  have hcard : (userWindowDays cex1Index 365 1).card = 366 := by
    rw [hfull, List.toFinset_card_of_nodup (nodup_windowDays 365),
      length_windowDays]
  exact ⟨hcard, by omega⟩

/-! ## C10: the rolling total dominates the other two per-day counts -/

/-- C10: in every per-day report row, the rolling-window distinct-user count
is at least the daily active user count and at least the super-user count. -/
theorem claim10_rolling_total_dominates (D : ℤ → Finset ℕ) (d : ℤ) :
    (dayRow D d).num_users ≤ (dayRow D d).rolling_yr_total
      ∧ (dayRow D d).users_ge42_days ≤ (dayRow D d).rolling_yr_total := by
  constructor
  · show (D d).card ≤ (windowUsers D d).card
    apply Finset.card_le_card
    intro u hu
    rw [mem_windowUsers]
    exact ⟨d, ⟨by omega, le_refl d⟩, hu⟩
  · show superUserCount D d ≤ (windowUsers D d).card
    exact Finset.card_filter_le _ _

/-! ## C6: threshold consistency between the two reports -/

/-- Counting a sorted-then-filtered list is counting the filtered set. -/
theorem length_sort_filter_eq_card_filter (s : Finset ℕ) (p : ℕ → Prop)
    [DecidablePred p] :
    ((s.sort (· ≤ ·)).filter (fun u => decide (p u))).length
      = (s.filter p).card := by
  have h1 : ((s.sort (· ≤ ·)).filter (fun u => decide (p u))).length
      = (s.toList.filter (fun u => decide (p u))).length :=
    ((Finset.sort_perm_toList (· ≤ ·) s).filter _).length_eq
  rw [h1, ← Multiset.coe_card, ← Multiset.filter_coe, Finset.coe_toList]
  rfl

/-- C6: the super-user count written in the per-day report row for day `d`
equals the number of rows the per-user report emits for day `d` when
`min_edit_days` is 42. -/
theorem claim6_threshold_consistency (D : ℤ → Finset ℕ)
    (L : ℕ → Option (ℤ × String)) (d : ℤ) :
    (dayRow D d).users_ge42_days
      = ((qualifyingUsers D d 42).map (userRow D L d)).length := by
  show superUserCount D d = _
  rw [List.length_map, superUserCount, qualifyingUsers,
    length_sort_filter_eq_card_filter (windowUsers D d)
      (fun uid => 42 ≤ (userWindowDays D d uid).card)]

/-! ## C7: shape and content of the per-day report -/

/-- C7: the per-day report has one row per calendar day from the earliest to
the latest observed day inclusive; the `i`-th row is the row for day
`minD + i` (so rows are in chronological order and cover exactly the observed
range); a row's daily active user count is the size of `day_edit_users[d]`,
and days with no entry are written as 0. -/
theorem claim7_per_day_report (events : List Event) (hne : events ≠ [])
    (minD maxD : ℤ)
    (hmin : minD = (observedDays events).min' (observedDays_nonempty events hne))
    (hmax : maxD = (observedDays events).max' (observedDays_nonempty events hne)) :
    (perDayReport (foldEvents events).day_edit_users minD maxD).length
        = (maxD - minD + 1).toNat
      ∧ (∀ i : ℕ, (i : ℤ) < maxD - minD + 1 →
          (perDayReport (foldEvents events).day_edit_users minD maxD)[i]?
            = some (dayRow (foldEvents events).day_edit_users (minD + (i : ℤ))))
      ∧ (∀ d : ℤ, (dayRow (foldEvents events).day_edit_users d).num_users
          = ((foldEvents events).day_edit_users d).card)
      ∧ (∀ d : ℤ, d ∉ observedDays events →
          (dayRow (foldEvents events).day_edit_users d).num_users = 0) := by
  refine ⟨?_, ?_, fun d => rfl, ?_⟩
  · rw [perDayReport, List.length_map, length_spanDays]
  · intro i hi
    rw [perDayReport, List.getElem?_map, getElem?_spanDays minD maxD i hi]
    rfl
  · intro d hd
    show ((foldEvents events).day_edit_users d).card = 0
    rw [Finset.card_eq_zero, day_edit_users_eq_empty_iff]
    exact hd

/-- Witness for C7 at the one-event list `[ev1]` (observed range `[0, 0]`). -/
theorem claim7_per_day_report_witness :
    (perDayReport (foldEvents [ev1]).day_edit_users 0 0).length
        = ((0 : ℤ) - 0 + 1).toNat
      ∧ (∀ i : ℕ, (i : ℤ) < (0 : ℤ) - 0 + 1 →
          (perDayReport (foldEvents [ev1]).day_edit_users 0 0)[i]?
            = some (dayRow (foldEvents [ev1]).day_edit_users (0 + (i : ℤ))))
      ∧ (∀ d : ℤ, (dayRow (foldEvents [ev1]).day_edit_users d).num_users
          = ((foldEvents [ev1]).day_edit_users d).card)
      ∧ (∀ d : ℤ, d ∉ observedDays [ev1] →
          (dayRow (foldEvents [ev1]).day_edit_users d).num_users = 0) :=
  claim7_per_day_report [ev1] (by decide) 0 0 (by decide) (by decide)

/-! ## C8: the minimum-span extension of the per-user report -/

/-- If the clamped span is shorter than `min_num_days`, the resolved span
pulls the clamped start back by `min_num_days` days (no re-clamp) and keeps
the clamped end. -/
theorem resolveSpan_of_short_span (args : Args) (minDay maxDay : ℤ) (m : ℕ)
    (hm : args.min_num_days = some m)
    (hshort : clamp (args.end_date.getD maxDay) minDay maxDay
        - clamp (args.start_date.getD minDay) minDay maxDay < (m : ℤ)) :
    resolveSpan args minDay maxDay
      = (clamp (args.start_date.getD minDay) minDay maxDay - (m : ℤ),
         clamp (args.end_date.getD maxDay) minDay maxDay) := by
  simp only [resolveSpan, hm]
  rw [if_pos hshort]

/-- C8: when the clamped per-user report span is shorter than
`min_num_days`, the span is lengthened by moving the start `min_num_days`
days earlier while the end stays unchanged, and the moved start is not
re-clamped to the observed day range (the witness moves it before the
earliest observed day). -/
theorem claim8_min_span_extension (args : Args) (minDay maxDay : ℤ) (m : ℕ)
    (hm : args.min_num_days = some m)
    (hshort : clamp (args.end_date.getD maxDay) minDay maxDay
        - clamp (args.start_date.getD minDay) minDay maxDay < (m : ℤ)) :
    resolveSpan args minDay maxDay
      = (clamp (args.start_date.getD minDay) minDay maxDay - (m : ℤ),
         clamp (args.end_date.getD maxDay) minDay maxDay) :=
  resolveSpan_of_short_span args minDay maxDay m hm hshort

/-- Witness for C8: with observed range `[0, 0]`, no explicit bounds and
`min_num_days = 5`, the resolved start is `-5`, five days before the earliest
observed day — demonstrating the absence of re-clamping. -/
theorem claim8_min_span_extension_witness :
    resolveSpan ⟨20, none, none, some 5⟩ 0 0
        = (clamp ((Option.none).getD 0) 0 0 - ((5 : ℕ) : ℤ),
           clamp ((Option.none).getD 0) 0 0)
      ∧ clamp ((Option.none).getD 0) 0 0 - ((5 : ℕ) : ℤ) < 0 :=
  ⟨claim8_min_span_extension ⟨20, none, none, some 5⟩ 0 0 5 rfl (by decide),
   by decide⟩

/-! ## C5: an inverted clamped span is not an error -/

/-- C5 (amended): a caller-supplied `start_date`/`end_date` pair that is
inverted after clamping to the observed range does not abort the run: the
`min_num_days` adjustment (which always fires, the clamped span length being
negative) pulls the start back, and the per-user report is produced over the
resulting span — which can be non-empty and emit rows
(`claim5_counterexample`). -/
theorem claim5_inverted_span_not_fatal (D : ℤ → Finset ℕ)
    (L : ℕ → Option (ℤ × String)) (args : Args) (minDay maxDay : ℤ) (m : ℕ)
    (hm : args.min_num_days = some m)
    (hinv : clamp (args.end_date.getD maxDay) minDay maxDay
        < clamp (args.start_date.getD minDay) minDay maxDay) :
    perUserReport D L args minDay maxDay
      = (spanDays
            (clamp (args.start_date.getD minDay) minDay maxDay - (m : ℤ))
            (clamp (args.end_date.getD maxDay) minDay maxDay)).flatMap
          (fun d => (qualifyingUsers D d args.min_edit_days).map
            (userRow D L d)) := by
  have hspan := resolveSpan_of_short_span args minDay maxDay m hm
    (by have : (0 : ℤ) ≤ (m : ℤ) := Int.natCast_nonneg m; omega)
  rw [perUserReport, hspan]

/-- Day index of the C5 scenario: editor 7 active on days 0 and 10 only. -/
def cex5Index : ℤ → Finset ℕ := fun d => if d = 0 ∨ d = 10 then {7} else ∅

/-- Latest-name index of the C5 scenario. -/
def cex5Names : ℕ → Option (ℤ × String) := fun u =>
  if u = 7 then some (0, "u7") else none

/-- Options of the C5 scenario: `min_edit_days 1`, `start_date 6`,
`end_date 5` (inverted), `min_num_days 3` (the source default). -/
def cex5Args : Args := ⟨1, some 6, some 5, some 3⟩

/-- Witness for C5 (amended), at the concrete inverted scenario of
`claim5_counterexample`. -/
theorem claim5_inverted_span_not_fatal_witness :
    perUserReport cex5Index cex5Names cex5Args 0 10
      = (spanDays (clamp (cex5Args.start_date.getD 0) 0 10 - ((3 : ℕ) : ℤ))
            (clamp (cex5Args.end_date.getD 10) 0 10)).flatMap
          (fun d => (qualifyingUsers cex5Index d cex5Args.min_edit_days).map
            (userRow cex5Index cex5Names d)) :=
  claim5_inverted_span_not_fatal cex5Index cex5Names cex5Args 0 10 3 rfl
    (by decide)

/-- Counterexample to C5 as stated: with observed range `[0, 10]` and the
inverted request `start_date = 6 > 5 = end_date` (both already inside the
observed range), the run does not fail and the per-user report is NOT empty:
the `min_num_days` adjustment moves the start to 3, and editor 7 (active on
day 0, inside the window of day 3) is reported. -/
theorem claim5_counterexample :
    clamp (cex5Args.end_date.getD 10) 0 10
        < clamp (cex5Args.start_date.getD 0) 0 10
      ∧ perUserReport cex5Index cex5Names cex5Args 0 10 ≠ [] := by
  refine ⟨by decide, ?_⟩
  have hspan : resolveSpan cex5Args 0 10 = (3, 5) := by decide
  have h0 : (0 : ℤ) ∈ userWindowDays cex5Index 3 7 := by
    rw [mem_userWindowDays]
    exact ⟨⟨by omega, by omega⟩, by decide⟩
  have h7 : (7 : ℕ) ∈ qualifyingUsers cex5Index 3 cex5Args.min_edit_days := by
    rw [qualifyingUsers, List.mem_filter]
    constructor
    · rw [Finset.mem_sort, mem_windowUsers_iff_nonempty]
      exact ⟨0, h0⟩
    · apply decide_eq_true
      show cex5Args.min_edit_days ≤ (userWindowDays cex5Index 3 7).card
      have : 0 < (userWindowDays cex5Index 3 7).card :=
        Finset.card_pos.mpr ⟨0, h0⟩
      show 1 ≤ _
      omega
  intro hnil
  have hmem : userRow cex5Index cex5Names 3 7
      ∈ perUserReport cex5Index cex5Names cex5Args 0 10 := by
    rw [perUserReport, hspan]
    refine List.mem_flatMap.mpr ⟨3, ?_, ?_⟩
    · rw [mem_spanDays]
      omega
    · exact List.mem_map_of_mem _ h7
  rw [hnil] at hmem
  exact List.not_mem_nil _ hmem

end OsmNac
